import Mathlib

/-!
Verification of the mtr_exporter measurement pipeline.

The development shallowly embeds, in Lean 4:
  * the go-mtr raw-output parser (`parseByteNum`, `parseHostnum` via
    `findSpace`, `(*MTR).processOutput` as `stepLine`/`runLines`/
    `processOutput`, and `(*MTR).processHosts` as `processHost`), and
  * the exporter's aggregation / change-detection loop
    (`(*Exporter).collect` as `collectFeedback`/`stepOutcome`/`processCycle`).

Modelling conventions:
  * Go byte slices are `List Char` (mtr output is ASCII).
  * Go `int` (64-bit) arithmetic in `parseByteNum` wraps; this is modelled
    with `wrap64`.  Go `>> 4` on `int` is an arithmetic shift, i.e. floor
    division by 16 (`Int.fdiv`).
  * Go float64 statistics are modelled with exact rationals; `math.Sqrt`
    (applied only in `host.StandardDev`) is modelled as `Real.sqrt` of the
    exact radicand, which is kept as the computable field `standardDevSq`.
  * `net.ParseIP` (Go standard library, outside this repository) is
    abstracted by the raw address text of the `h` record; a placeholder hop
    created by auto-extension keeps `ip = none` (Go `nil`).  Equality of
    parsed addresses corresponds to equality of the raw text for the
    canonical addresses mtr emits.
  * A Go panic inside `processOutput` is converted by its `recover` into
    the malformed-output error; this is modelled by `MtrResult.malformed`.
    Panics in `(*Exporter).collect` are NOT recovered (they would kill the
    process); they are modelled by `Option.none`.
  * Each prometheus counter/summary mutation (`Inc`/`Add`/`Observe`) is an
    append-only effect on an external sink; it is modelled as an `Event`
    appended to the state's event list, carrying the labels and value.
-/

namespace Mtr

/-- ASCII text, as a list of characters (Go `[]byte` of mtr output). -/
abbrev Str := List Char

/-- Address text of a hop (`net.IP` abstracted by the raw `h`-record field). -/
abbrev Addr := List Char

/-- Reduce a mathematical integer to Go's 64-bit two's-complement `int`. -/
def wrap64 (x : Int) : Int := (x + 2 ^ 63) % 2 ^ 64 - 2 ^ 63

/-- go-mtr `parseByteNum`: folds `i = 10*i + int(v) - 48` over the bytes,
with no digit validation, in Go `int` (wrapping) arithmetic. -/
def parseByteNum (input : List Char) : Int :=
  input.foldl (fun i v => wrap64 (10 * i + ((v.toNat : Int) - 48))) 0

/-- go-mtr `Host`: one hop of the traced path.  Field defaults are the Go
zero values.  `standardDevSq` holds the radicand `sqrDiff / mean` that the
source passes to `math.Sqrt`; see `standardDev`. -/
structure Host where
  ip : Option Addr := none
  name : Str := []
  hop : Int := 0
  packetMicrosecs : List Int := []
  sent : Int := 0
  received : Int := 0
  dropped : Int := 0
  lostPercent : ℚ := 0
  mean : ℚ := 0
  best : Int := 0
  worst : Int := 0
  standardDevSq : ℚ := 0
  meanJitter : ℚ := 0
  worstJitter : Int := 0
  interarrivalJitter : Int := 0
deriving DecidableEq

/-- Result of go-mtr output processing: the hop list, or the
malformed-output error produced by the `recover` around `processOutput`. -/
inductive MtrResult (α : Type) where
  | ok (val : α)
  | malformed
deriving DecidableEq

/-- `bytes.IndexByte(line, ' ')` : index of the first space, if any. -/
def findSpace : List Char → Option Nat
  | [] => none
  | c :: rest => if c = ' ' then some 0 else (findSpace rest).map (· + 1)

/-- The `for len(m.Hosts) < hostnum+1 { append placeholder }` loop of the
`h` case, in closed form: each placeholder is created with `Hop` equal to
the length of the host list at the moment it is appended. -/
def extendHosts (hosts : List Host) (n : Nat) : List Host :=
  hosts ++ (List.range (n + 1 - hosts.length)).map
    (fun k => { hop := ((hosts.length + k : Nat) : Int) })

/-- In-place update of the host at an index (`m.Hosts[i]` assignment). -/
def modifyAt (f : Host → Host) : Nat → List Host → List Host
  | _, [] => []
  | 0, h :: t => f h :: t
  | n + 1, h :: t => h :: modifyAt f n t

/-- One iteration of the `processOutput` line loop, on one complete line.
`.malformed` models the panics caught by the surrounding `recover`:
slicing `line[2:]` on a line shorter than 2 bytes, slicing `line[2:1]`
when no space follows the index field, and indexing `m.Hosts[hostnum]`
out of range in the `h` (negative index), `d` and `p` cases. -/
def stepLine (hosts : List Host) (line : List Char) : MtrResult (List Host) :=
  if line.length < 2 then .malformed else
    match findSpace (line.drop 2) with
    | none => .malformed
    | some i =>
      let hostnum : Int := parseByteNum ((line.drop 2).take i)
      let content : List Char := line.drop (i + 3)
      if line.head? = some 'h' then
        if 0 ≤ hostnum then
          .ok (modifyAt (fun h => { h with ip := some content })
            hostnum.toNat (extendHosts hosts hostnum.toNat))
        else .malformed
      else if line.head? = some 'd' then
        if 0 ≤ hostnum ∧ hostnum.toNat < hosts.length then
          .ok (modifyAt (fun h => { h with name := content }) hostnum.toNat hosts)
        else .malformed
      else if line.head? = some 'p' then
        if 0 ≤ hostnum ∧ hostnum.toNat < hosts.length then
          .ok (modifyAt
            (fun h => { h with packetMicrosecs := h.packetMicrosecs ++ [parseByteNum content] })
            hostnum.toNat hosts)
        else .malformed
      else .ok hosts

/-- The `processOutput` line loop over the already-split complete lines. -/
def runLines (hosts : List Host) : List (List Char) → MtrResult (List Host)
  | [] => .ok hosts
  | l :: ls =>
    match stepLine hosts l with
    | .ok hs => runLines hs ls
    | .malformed => .malformed

/-- The newline scan of the `processOutput` loop: successive
`bytes.IndexByte(output, '\n')` calls yield exactly the newline-terminated
lines; any trailing fragment after the last newline is left in `output`
when the loop breaks, hence dropped.  `acc` is the (reversed) portion of
the current line read so far. -/
def splitNL (acc : List Char) : List Char → List (List Char)
  | [] => []
  | c :: rest => if c = '\n' then acc.reverse :: splitNL [] rest else splitNL (c :: acc) rest

/-- Loop state of the first statistics pass of `processHosts`
(`totalPacketTime`, `best`, `worst`, `worstJitter`,
`host.InterarrivalJitter`, `jitters`).  `best` starts at `1<<31 - 1`. -/
structure Pass1 where
  total : Int := 0
  best : Int := 2 ^ 31 - 1
  worst : Int := 0
  worstJitter : Int := 0
  iaJitter : Int := 0
  jitters : List Int := []
deriving DecidableEq

/-- The first `for i, packet := range host.PacketMicrosecs` loop of
`processHosts`; `prev` is `pm[i-1]` (`none` at `i = 0`, where the jitter
block is skipped).  `jitters` collects the per-pair values the Go code
stores at indices `1..`; index 0 of its preallocated array stays 0 and is
therefore immaterial to `jitterSum`. -/
def pass1 (prev : Option Int) (st : Pass1) : List Int → Pass1
  | [] => st
  | packet :: rest =>
    let st1 :=
      match prev with
      | none => st
      | some pr =>
        let nj0 := packet - pr
        let nj := if nj0 < 0 then -nj0 else nj0
        { st with
          worstJitter := if nj > st.worstJitter then nj else st.worstJitter
          jitters := st.jitters ++ [nj]
          iaJitter := st.iaJitter + (nj - Int.fdiv (st.iaJitter + 8) 16) }
    let st2 :=
      { st1 with
        total := st1.total + packet
        worst := if packet > st1.worst then packet else st1.worst
        best := if packet < st1.best then packet else st1.best }
    pass1 (some packet) st2 rest

/-- The body of `(*MTR).processHosts` for one host: sets
`Sent`/`Received`/`Dropped`/`LostPercent`, then — only when at least one
packet was received — the latency and jitter statistics.  The second Go
loop (summing squared deviations and jitters) appears as the two folds. -/
def processHost (packetsSent : Int) (h : Host) : Host :=
  let received := h.packetMicrosecs.length
  let dropped := packetsSent - (received : Int)
  let lost : ℚ := (dropped : ℚ) / (packetsSent : ℚ)
  if received = 0 then
    { h with sent := packetsSent, received := (received : Int),
             dropped := dropped, lostPercent := lost }
  else
    let st := pass1 none {} h.packetMicrosecs
    let mean : ℚ := (st.total : ℚ) / (received : ℚ)
    let sqrDiff : ℚ :=
      h.packetMicrosecs.foldl (fun a (p : Int) => a + ((p : ℚ) - mean) * ((p : ℚ) - mean)) 0
    let jitterSum : Int := st.jitters.foldl (fun a j => a + j) 0
    { h with sent := packetsSent, received := (received : Int),
             dropped := dropped, lostPercent := lost,
             mean := mean, best := st.best, worst := st.worst,
             standardDevSq := sqrDiff / mean,
             meanJitter := (jitterSum : ℚ) / (received : ℚ),
             worstJitter := st.worstJitter, interarrivalJitter := st.iaJitter }

/-- `host.StandardDev = math.Sqrt(sqrDiff / float64(host.Mean))`: the
square root applied to the exact radicand carried in `standardDevSq`. -/
noncomputable def standardDev (h : Host) : ℝ := Real.sqrt (h.standardDevSq : ℝ)

/-- `(*MTR).processOutput`: append a space (it contains no newline, so the
complete lines are unchanged and the trailing fragment is still dropped),
process each newline-terminated line, then run `processHosts`.
`packetsSent` is `m.PacketsSent` (the exporter constructs `mtr.New` with
report-cycle count 1). -/
def processOutput (packetsSent : Int) (out : List Char) : MtrResult (List Host) :=
  match runLines [] (splitNL [] (out ++ [' '])) with
  | .ok hs => .ok (hs.map (processHost packetsSent))
  | .malformed => .malformed

/-- `TargetFeedback` from `main.go`: one successful trace delivered to the
aggregation loop. -/
structure TargetFeedback where
  target : Str
  aliasName : Str
  hosts : List Host
deriving DecidableEq

/-- One prometheus mutation performed by `(*Exporter).collect` or by the
worker error path, with its label values and (for `Add`/`Observe`) the
value: the five per-hop metrics, the two change counters and the
per-target failure counter. -/
inductive Event where
  | sentE (aliasName target : Str) (hop : Int) (ip : Option Addr) (v : ℚ)
  | receivedE (aliasName target : Str) (hop : Int) (ip : Option Addr) (v : ℚ)
  | droppedE (aliasName target : Str) (hop : Int) (ip : Option Addr) (v : ℚ)
  | lostE (aliasName target : Str) (hop : Int) (ip : Option Addr) (v : ℚ)
  | latencyE (aliasName target : Str) (hop : Int) (ip : Option Addr) (v : ℚ)
  | routeChangeE (aliasName target : Str) (idx : Nat)
  | destChangeE (aliasName target : Str) (prev cur : Option Addr)
  | failedE (aliasName target : Str)
deriving DecidableEq

/-- Mutable exporter state: the `lastDest` and `lastRoute` maps (as
association lists keyed by alias) plus the stream of emitted metric
mutations.  A missing `lastDest` key and a stored `nil` destination are
both `none` on lookup, exactly as the Go `!= nil` test conflates them;
`lastRoute` values are the non-nil slices the code stores. -/
structure ExpState where
  lastDest : List (Str × Option Addr)
  lastRoute : List (Str × List (Option Addr))
  events : List Event
deriving DecidableEq

/-- Map lookup, `nil` (missing) as `none`. -/
def lookupA {α : Type} (l : List (Str × α)) (k : Str) : Option α :=
  match l with
  | [] => none
  | p :: t => if p.1 = k then some p.2 else lookupA t k

/-- Map assignment `m[k] = v`. -/
def setA {α : Type} (l : List (Str × α)) (k : Str) (v : α) : List (Str × α) :=
  match l with
  | [] => [(k, v)]
  | p :: t => if p.1 = k then (k, v) :: t else p :: setA t k v

/-- `lastDest` lookup: a stored `nil` destination behaves like a missing
entry under the `!= nil` guard, so flatten the two layers. -/
def lookupDest (l : List (Str × Option Addr)) (k : Str) : Option Addr :=
  match lookupA l k with
  | some v => v
  | none => none

/-- The `min` helper of `main.go`. -/
def mtrMin (a b : Int) : Int := if a > b then b else a

/-- The five metric mutations the aggregation loop performs for one hop:
`sent`/`received`/`dropped` add the counts, `lost` adds
`LostPercent * float64(Sent)`, `latency` observes `Mean`. -/
def hopEvents (aliasName target : Str) (h : Host) : List Event :=
  [ .sentE aliasName target h.hop h.ip (h.sent : ℚ),
    .receivedE aliasName target h.hop h.ip (h.received : ℚ),
    .droppedE aliasName target h.hop h.ip (h.dropped : ℚ),
    .lostE aliasName target h.hop h.ip (h.lostPercent * (h.sent : ℚ)),
    .latencyE aliasName target h.hop h.ip h.mean ]

/-- The route-change section of `collect`: compare only when a previous
route is recorded (`!= nil`); on a length difference emit one event at
`min` of the lengths, otherwise one event per differing index strictly
below `m - 1`; the new route is stored ONLY inside this non-nil branch
(this placement is what the development shows makes the branch
unreachable from the initial state). -/
def routeCheck (aliasName target : Str) (route : List (Option Addr))
    (lastRoute : List (Str × List (Option Addr))) :
    List Event × List (Str × List (Option Addr)) :=
  match lookupA lastRoute aliasName with
  | none => ([], lastRoute)
  | some prev =>
    let m := mtrMin (route.length : Int) (prev.length : Int)
    let evs :=
      if (route.length : Int) ≠ (prev.length : Int) then
        [Event.routeChangeE aliasName target m.toNat]
      else
        (List.range (m.toNat - 1)).filterMap
          (fun i => if route.getD i none ≠ prev.getD i none
                    then some (Event.routeChangeE aliasName target i) else none)
    (evs, setA lastRoute aliasName route)

/-- The destination-change section of `collect`: emit when a previous
non-nil destination is recorded and differs; always store the new one. -/
def destCheck (aliasName target : Str) (destination : Option Addr)
    (lastDest : List (Str × Option Addr)) :
    List Event × List (Str × Option Addr) :=
  let evs :=
    match lookupDest lastDest aliasName with
    | some prevD =>
      if destination ≠ some prevD
      then [Event.destChangeE aliasName target (some prevD) destination] else []
    | none => []
  (evs, setA lastDest aliasName destination)

/-- `tf.Hosts[len(tf.Hosts)-1]`: the final hop, `none` when the index
`-1` would be out of range (a panic `collect` does not recover from). -/
def lastElem? : List Host → Option Host
  | [] => none
  | [h] => some h
  | _ :: h :: t => lastElem? (h :: t)

/-- The body of the aggregation loop of `(*Exporter).collect` for one
received `TargetFeedback`: read the destination from the final hop, emit
the per-hop metrics, then the route-change and destination-change
sections.  `none` models the unrecovered out-of-range panic on an empty
hop list. -/
def collectFeedback (tf : TargetFeedback) (s : ExpState) : Option ExpState :=
  match lastElem? tf.hosts with
  | none => none
  | some lastH =>
    let route := tf.hosts.map (fun h => h.ip)
    let destination := lastH.ip
    let evs1 := (tf.hosts.map (hopEvents tf.aliasName tf.target)).flatten
    let rc := routeCheck tf.aliasName tf.target route s.lastRoute
    let dc := destCheck tf.aliasName tf.target destination s.lastDest
    some { lastDest := dc.2, lastRoute := rc.2,
           events := s.events ++ evs1 ++ rc.1 ++ dc.1 }

/-- One worker's contribution to a cycle: a successful trace handed to the
aggregation loop, or a failure (probe execution error or malformed
output), which only increments that target's failure counter. -/
inductive Outcome where
  | okF (tf : TargetFeedback)
  | failF (aliasName target : Str)
deriving DecidableEq

/-- Effect of one worker outcome on the exporter state. -/
def stepOutcome (s : ExpState) : Outcome → Option ExpState
  | .okF tf => collectFeedback tf s
  | .failF a t => some { s with events := s.events ++ [Event.failedE a t] }

/-- Serialized processing of worker outcomes by the single aggregation
point (the `for tf := range results` loop plus the worker error path), in
the arbitrary order in which workers finish. -/
def processCycle : List Outcome → ExpState → Option ExpState
  | [], s => some s
  | o :: l, s =>
    match stepOutcome s o with
    | some s' => processCycle l s'
    | none => none

/-- Exporter state at startup: empty maps, nothing emitted. -/
def initState : ExpState := ⟨[], [], []⟩

/-- Modelled from the spec: `standardDeviation = sqrt( sum((sample-mean)^2)
/ mean )` with `mean = sum(samples)/received` — the reference formula the
computed statistics are compared against.  (`specMean` is the mean.) -/
def specMean (pm : List Int) : ℚ := ((pm.sum : Int) : ℚ) / (pm.length : ℚ)

/-- Modelled from the spec: the radicand `sum((sample-mean)^2) / mean` of
the specified standard deviation — squared deviations divided by the mean
latency value, not by the sample count. -/
def specStdDevSq (pm : List Int) : ℚ :=
  (pm.map (fun (p : Int) => ((p : ℚ) - specMean pm) ^ 2)).sum / specMean pm

/-- Number of route-change emissions in an event stream. -/
def Event.isRouteChange : Event → Bool
  | .routeChangeE _ _ _ => true
  | _ => false

/-- Projection of a parse result to each hop's address and samples. -/
def hopSummary (r : MtrResult (List Host)) : MtrResult (List (Option Addr × List Int)) :=
  match r with
  | .ok hs => .ok (hs.map fun h => (h.ip, h.packetMicrosecs))
  | .malformed => .malformed

/-- A parsed hop whose address text is the single character `c`. -/
def ipHost (c : Char) : Host := { ip := some [c] }

/-- A successful trace for alias `a` / target `t` whose route is the given
single-character addresses. -/
def feedback1 (cs : List Char) : TargetFeedback :=
  { target := ['t'], aliasName := ['a'], hosts := cs.map ipHost }

/-! ### General lemmas about the line scanner and the line loop -/

theorem splitNL_cons_nl (acc X : List Char) :
    splitNL acc ('
' :: X) = acc.reverse :: splitNL [] X := by
  simp [splitNL]

theorem splitNL_cons_other (acc : List Char) (c : Char) (X : List Char) (h : c ≠ '
') :
    splitNL acc (c :: X) = splitNL (c :: acc) X := by
  simp [splitNL, h]

theorem splitNL_no_nl (xs : List Char) (h : '
' ∉ xs) : ∀ acc, splitNL acc xs = [] := by
  induction xs with
  | nil => intro acc; rfl
  | cons c rest ih =>
    intro acc
    have hc : c ≠ '
' := fun hc => h (hc ▸ List.mem_cons_self c rest)
    have hrest : '
' ∉ rest := fun hm => h (List.mem_cons_of_mem c hm)
    rw [splitNL_cons_other _ _ _ hc]
    exact ih hrest _

theorem splitNL_append_no_nl (xs : List Char) (h : '
' ∉ xs) :
    ∀ acc ys, splitNL acc (xs ++ ys) = splitNL (xs.reverse ++ acc) ys := by
  induction xs with
  | nil => intro acc ys; simp
  | cons c rest ih =>
    intro acc ys
    have hc : c ≠ '
' := fun hc => h (hc ▸ List.mem_cons_self c rest)
    have hrest : '
' ∉ rest := fun hm => h (List.mem_cons_of_mem c hm)
    rw [List.cons_append, splitNL_cons_other _ _ _ hc, ih hrest]
    simp

theorem splitNL_congr_tail (u : List Char) (t1 t2 : List Char)
    (h1 : '
' ∉ t1) (h2 : '
' ∉ t2) :
    ∀ acc, splitNL acc (u ++ t1) = splitNL acc (u ++ t2) := by
  induction u with
  | nil => intro acc; simp [splitNL_no_nl t1 h1, splitNL_no_nl t2 h2]
  | cons c rest ih =>
    intro acc
    by_cases hc : c = '
'
    · subst hc
      rw [List.cons_append, List.cons_append, splitNL_cons_nl, splitNL_cons_nl, ih]
    · rw [List.cons_append, List.cons_append, splitNL_cons_other _ _ _ hc,
        splitNL_cons_other _ _ _ hc]
      exact ih _

theorem splitNL_nlterm (A : List Char) (hA : A.getLast? = some '
') :
    ∀ acc rest, splitNL acc (A ++ rest) = splitNL acc A ++ splitNL [] rest := by
  induction A with
  | nil => simp at hA
  | cons c A' ih =>
    intro acc rest
    cases A' with
    | nil =>
      have hc : c = '
' := by simpa [List.getLast?] using hA
      subst hc
      rw [List.cons_append, List.nil_append, splitNL_cons_nl, splitNL_cons_nl]
      simp [splitNL]
    | cons b t =>
      have hA' : (b :: t).getLast? = some '
' := by
        rwa [List.getLast?_cons_cons] at hA
      by_cases hc : c = '
'
      · subst hc
        rw [List.cons_append, splitNL_cons_nl, splitNL_cons_nl, ih hA']
        simp
      · rw [List.cons_append, splitNL_cons_other _ _ _ hc, splitNL_cons_other _ _ _ hc]
        exact ih hA' _ _

theorem runLines_append (l1 l2 : List (List Char)) : ∀ hs,
    runLines hs (l1 ++ l2) =
      match runLines hs l1 with
      | .ok hs' => runLines hs' l2
      | .malformed => .malformed := by
  induction l1 with
  | nil => intro hs; rfl
  | cons l ls ih =>
    intro hs
    simp only [List.cons_append, runLines]
    cases stepLine hs l with
    | ok hs2 => exact ih hs2
    | malformed => rfl

theorem findSpace_some_of_mem (rest : List Char) (h : ' ' ∈ rest) :
    ∃ i, findSpace rest = some i := by
  induction rest with
  | nil => simp at h
  | cons c t ih =>
    by_cases hc : c = ' '
    · exact ⟨0, by simp [findSpace, hc]⟩
    · have ht : ' ' ∈ t := by
        rcases List.mem_cons.mp h with h' | h'
        · exact absurd h'.symm hc
        · exact h'
      obtain ⟨i, hi⟩ := ih ht
      exact ⟨i + 1, by simp [findSpace, hc, hi]⟩

theorem findSpace_append_space (numf : List Char) (h : ' ' ∉ numf) :
    ∀ ys, findSpace (numf ++ ' ' :: ys) = some numf.length := by
  induction numf with
  | nil => intro ys; simp [findSpace]
  | cons c t ih =>
    intro ys
    have hc : c ≠ ' ' := fun hc => h (hc ▸ List.mem_cons_self c t)
    have ht : ' ' ∉ t := fun hm => h (List.mem_cons_of_mem c hm)
    simp [findSpace, hc, ih ht]

theorem take_length_append {α : Type} (xs ys : List α) : (xs ++ ys).take xs.length = xs := by
  induction xs with
  | nil => rfl
  | cons c t ih => simp [ih]

theorem drop_length_succ_append {α : Type} (xs : List α) (y : α) (ys : List α) :
    (xs ++ y :: ys).drop (xs.length + 1) = ys := by
  induction xs with
  | nil => rfl
  | cons c t ih => simp only [List.cons_append, List.length_cons, List.drop_succ_cons]; exact ih

/-- A line whose prefix byte is none of `h`, `d`, `p` but which survives
hop-number extraction (length at least 2, a space after position 2) falls
into the default switch case: the state is unchanged. -/
theorem stepLine_ignore (hs : List Host) (c0 c1 : Char) (rest : List Char)
    (hhh : c0 ≠ 'h') (hd : c0 ≠ 'd') (hp : c0 ≠ 'p') (hsp : ' ' ∈ rest) :
    stepLine hs (c0 :: c1 :: rest) = .ok hs := by
  obtain ⟨i, hi⟩ := findSpace_some_of_mem rest hsp
  simp [stepLine, hi, hhh, hd, hp]

/-- A `p` or `d` line whose hop index is negative or at least the current
hop count indexes `m.Hosts` out of range: the recovered panic, i.e. a
malformed-output error. -/
theorem stepLine_pd_invalid (hs : List Host) (c c1 : Char) (numf content : List Char)
    (hc : c = 'p' ∨ c = 'd') (hnumf : ' ' ∉ numf)
    (hidx : parseByteNum numf < 0 ∨ hs.length ≤ (parseByteNum numf).toNat) :
    stepLine hs (c :: c1 :: (numf ++ ' ' :: content)) = .malformed := by
  have hfind := findSpace_append_space numf hnumf content
  have htake : (numf ++ ' ' :: content).take numf.length = numf := by
    exact take_length_append numf (' ' :: content)
  have hcond : ¬ (0 ≤ parseByteNum numf ∧ (parseByteNum numf).toNat < hs.length) := by
    rcases hidx with h | h
    · exact fun hh => absurd hh.1 (not_le.mpr h)
    · exact fun hh => absurd hh.2 (not_lt.mpr h)
  rcases hc with hc | hc <;> subst hc <;>
    simp [stepLine, hfind, htake, hcond]

/-- Inserting a line that `stepLine` ignores anywhere between complete
lines does not change the run. -/
theorem runLines_ignore_mid (LA LB : List (List Char)) (line : List Char)
    (hstep : ∀ hs, stepLine hs line = .ok hs) :
    runLines [] (LA ++ line :: LB) = runLines [] (LA ++ LB) := by
  rw [runLines_append, runLines_append]
  cases runLines [] LA with
  | ok hs' => simp only [runLines, hstep hs']
  | malformed => rfl

/-! ### Lemmas about the statistics pass -/

theorem pass1_total : ∀ (pm : List Int) (prev : Option Int) (st : Pass1),
    (pass1 prev st pm).total = st.total + pm.sum := by
  intro pm
  induction pm with
  | nil => intro prev st; simp [pass1]
  | cons p rest ih =>
    intro prev st
    cases prev with
    | none => rw [pass1]; rw [ih]; simp; ring
    | some pr => rw [pass1]; rw [ih]; simp; ring

theorem foldl_add_map_sum (f : Int → ℚ) : ∀ (l : List Int) (a : ℚ),
    l.foldl (fun acc p => acc + f p) a = a + (l.map f).sum := by
  intro l
  induction l with
  | nil => intro a; simp
  | cons p rest ih => intro a; simp [ih]; ring

theorem processHost_ip (ps : Int) (h : Host) : (processHost ps h).ip = h.ip := by
  rw [processHost]
  split <;> rfl

theorem processHost_pm (ps : Int) (h : Host) :
    (processHost ps h).packetMicrosecs = h.packetMicrosecs := by
  rw [processHost]
  split <;> rfl

theorem sqrDiff_eq (pm : List Int) (M : ℚ) :
    pm.foldl (fun a (p : Int) => a + ((p : ℚ) - M) * ((p : ℚ) - M)) 0
      = (pm.map (fun (p : Int) => ((p : ℚ) - M) ^ 2)).sum := by
  rw [foldl_add_map_sum (fun p => ((p : ℚ) - M) * ((p : ℚ) - M))]
  simp [pow_two]

/-- The radicand the statistics pass hands to `math.Sqrt` is exactly the
specified `sum((sample-mean)^2) / mean`. -/
theorem processHost_standardDevSq (ps : Int) (h : Host) (hne : h.packetMicrosecs ≠ []) :
    (processHost ps h).standardDevSq = specStdDevSq h.packetMicrosecs := by
  have hlen : ¬ h.packetMicrosecs.length = 0 := by
    intro hl; exact hne (List.length_eq_zero.mp hl)
  simp only [processHost, if_neg hlen]
  rw [sqrDiff_eq, pass1_total]
  simp [specStdDevSq, specMean]

/-- A `p` line with index field `numf` parsing to 0, against a single-hop
list, appends the parse of its payload to that hop's samples. -/
theorem stepLine_p_single (h0 : Host) (c1 : Char) (numf bs : List Char)
    (hn : ' ' ∉ numf) (hnum0 : parseByteNum numf = 0) :
    stepLine [h0] ('p' :: c1 :: (numf ++ ' ' :: bs))
      = .ok [{ h0 with packetMicrosecs := h0.packetMicrosecs ++ [parseByteNum bs] }] := by
  have hfind := findSpace_append_space numf hn bs
  have htake : (numf ++ ' ' :: bs).take numf.length = numf := take_length_append numf (' ' :: bs)
  have hdrop : ('p' :: c1 :: (numf ++ ' ' :: bs)).drop (numf.length + 3) = bs := by
    show (numf ++ ' ' :: bs).drop (numf.length + 1) = bs
    exact drop_length_succ_append numf ' ' bs
  simp [stepLine, hfind, htake, hdrop, hnum0, modifyAt]

/-! ### Lemmas about the aggregation cycle -/

/-- One outcome step only appends to the event stream; the appended events
and the new maps depend only on the maps, not on previously emitted
events. -/
theorem stepOutcome_shift (o : Outcome) (s : ExpState) :
    stepOutcome s o =
      (stepOutcome ⟨s.lastDest, s.lastRoute, []⟩ o).map
        (fun s' => ⟨s'.lastDest, s'.lastRoute, s.events ++ s'.events⟩) := by
  cases o with
  | failF a t => simp [stepOutcome]
  | okF tf =>
    simp only [stepOutcome, collectFeedback]
    cases lastElem? tf.hosts with
    | none => rfl
    | some lastH => simp

/-- `processCycle` factored through its event output: the run from any
state equals the run from the same maps with an empty stream, with the
initial stream prepended. -/
theorem processCycle_shift : ∀ (l : List Outcome) (s : ExpState),
    processCycle l s =
      (processCycle l ⟨s.lastDest, s.lastRoute, []⟩).map
        (fun s' => ⟨s'.lastDest, s'.lastRoute, s.events ++ s'.events⟩) := by
  intro l
  induction l with
  | nil => intro s; simp [processCycle]
  | cons o rest ih =>
    intro s
    rw [processCycle, processCycle, stepOutcome_shift o s]
    cases h0 : stepOutcome ⟨s.lastDest, s.lastRoute, []⟩ o with
    | none => rfl
    | some s0 =>
      simp only [Option.map_some']
      rw [ih ⟨s0.lastDest, s0.lastRoute, s.events ++ s0.events⟩, ih s0]
      cases h1 : processCycle rest ⟨s0.lastDest, s0.lastRoute, []⟩ with
      | none => rfl
      | some s1 => simp

theorem processCycle_append : ∀ (l1 l2 : List Outcome) (s : ExpState),
    processCycle (l1 ++ l2) s =
      match processCycle l1 s with
      | some s' => processCycle l2 s'
      | none => none := by
  intro l1
  induction l1 with
  | nil => intro l2 s; rfl
  | cons o rest ih =>
    intro l2 s
    simp only [List.cons_append, processCycle]
    cases stepOutcome s o with
    | none => rfl
    | some s' => exact ih l2 s'

/-- Invariant behind the dead route-change logic: a state whose
`lastRoute` map is empty keeps it empty through every outcome, because
the only assignment to the map sits inside the branch requiring the entry
to already be non-nil. -/
theorem stepOutcome_lastRoute_nil (o : Outcome) (s : ExpState) (s' : ExpState)
    (hnil : s.lastRoute = []) (h : stepOutcome s o = some s') : s'.lastRoute = [] := by
  cases o with
  | failF a t =>
    simp only [stepOutcome] at h
    cases h
    exact hnil
  | okF tf =>
    simp only [stepOutcome, collectFeedback] at h
    cases hlast : lastElem? tf.hosts with
    | none => rw [hlast] at h; cases h
    | some lastH =>
      rw [hlast] at h
      simp only [Option.some.injEq] at h
      rw [← h]
      simp [routeCheck, hnil, lookupA]

theorem lastElem?_cons_some : ∀ (l : List Host) (a : Host), ∃ x, lastElem? (a :: l) = some x := by
  intro l
  induction l with
  | nil => intro a; exact ⟨a, rfl⟩
  | cons b t ih => intro a; exact ih b

/-! ### Claims -/

/-- C2, counterexample: parsing a buffer whose final line lacks a
terminating newline does NOT process that line — `h 0 1.2.3.4` without a
newline parses to no hops at all, while the newline-terminated buffer
parses to one hop, so the with/without-newline results differ. -/
theorem trailing_line_requires_newline_cex :
    processOutput 1 (("h 0 1.2.3.4").data) = .ok [] ∧
      processOutput 1 (("h 0 1.2.3.4\n").data) ≠ processOutput 1 (("h 0 1.2.3.4").data) := by
  constructor
  · decide
  · decide

/-- C2, amended: the parser processes only newline-terminated lines; any
trailing content after the last newline is ignored, so a buffer parses
exactly as if everything after its last newline were absent. -/
theorem trailing_fragment_ignored (ps : Int) (u t : List Char) (ht : '\n' ∉ t) :
    processOutput ps (u ++ t) = processOutput ps u := by
  have h1 : '\n' ∉ t ++ [' '] := by
    intro hm
    rcases List.mem_append.mp hm with hm | hm
    · exact ht hm
    · simp at hm
  have h2 : '\n' ∉ ([' '] : List Char) := by decide
  have h3 := splitNL_congr_tail u (t ++ [' ']) [' '] h1 h2 []
  rw [processOutput, processOutput, List.append_assoc, h3]

/-- C2 witness: appending the unterminated fragment `p 0 9` to a
newline-terminated buffer leaves the parse unchanged. -/
theorem trailing_fragment_ignored_witness :
    ('\n' ∉ (("p 0 9").data)) ∧
      processOutput 1 ((("h 0 1.2.3.4\n").data) ++ (("p 0 9").data))
        = processOutput 1 (("h 0 1.2.3.4\n").data) :=
  ⟨by decide, trailing_fragment_ignored 1 _ _ (by decide)⟩

/-- C5: a hop with an empty latency-sample sequence (received = 0) keeps
the zero default in every derived latency and jitter field — the
statistics pass returns before any of those computations. -/
theorem zero_received_keeps_defaults (ps : Int) (ip0 : Option Addr) (nm : Str) (hp : Int) :
    (processHost ps { ip := ip0, name := nm, hop := hp }).received = 0 ∧
    (processHost ps { ip := ip0, name := nm, hop := hp }).mean = 0 ∧
    (processHost ps { ip := ip0, name := nm, hop := hp }).best = 0 ∧
    (processHost ps { ip := ip0, name := nm, hop := hp }).worst = 0 ∧
    (processHost ps { ip := ip0, name := nm, hop := hp }).standardDevSq = 0 ∧
    standardDev (processHost ps { ip := ip0, name := nm, hop := hp }) = 0 ∧
    (processHost ps { ip := ip0, name := nm, hop := hp }).meanJitter = 0 ∧
    (processHost ps { ip := ip0, name := nm, hop := hp }).worstJitter = 0 ∧
    (processHost ps { ip := ip0, name := nm, hop := hp }).interarrivalJitter = 0 := by
  simp [processHost, standardDev]

/-- C9: the aggregation step reads `tf.Hosts[len(tf.Hosts)-1]`
unconditionally, so it is defined exactly for traces with at least one
hop — on an empty hop list the final-hop index is out of range. -/
theorem aggregation_requires_nonempty_hops (tf : TargetFeedback) (s : ExpState) :
    (collectFeedback tf s).isSome = true ↔ tf.hosts ≠ [] := by
  cases htf : tf.hosts with
  | nil => simp [collectFeedback, htf, lastElem?]
  | cons a l =>
    obtain ⟨x, hx⟩ := lastElem?_cons_some l a
    simp [collectFeedback, htf, hx]

/-- C7, counterexample: an unrecognized line is NOT always ignored — the
one-byte line `x` makes hop-number extraction slice out of range, so the
whole buffer is malformed, while the buffer with that line removed parses
to no hops. -/
theorem short_unknown_line_not_ignored_cex :
    processOutput 1 ['x', '\n'] = .malformed ∧
      processOutput 1 [] = .ok [] := by
  constructor
  · decide
  · decide

/-- C7, amended: a line with an unrecognized prefix is ignored provided it
survives hop-number extraction (at least 2 bytes and a space after
position 2): inserting such a line between complete lines leaves the
parse of the rest of the buffer unchanged. -/
theorem wellformed_unknown_lines_ignored (ps : Int) (A B : List Char) (c0 c1 : Char)
    (rest : List Char)
    (hA : A = [] ∨ A.getLast? = some '\n')
    (hh : c0 ≠ 'h') (hd : c0 ≠ 'd') (hp : c0 ≠ 'p')
    (hnl : '\n' ∉ (c0 :: c1 :: rest)) (hsp : ' ' ∈ rest) :
    processOutput ps (A ++ (c0 :: c1 :: rest) ++ '\n' :: B) = processOutput ps (A ++ B) := by
  have hstep : ∀ hs, stepLine hs (c0 :: c1 :: rest) = .ok hs :=
    fun hs => stepLine_ignore hs c0 c1 rest hh hd hp hsp
  have hsplitmid : ∀ R : List Char,
      splitNL [] ((c0 :: c1 :: rest) ++ '\n' :: R) = (c0 :: c1 :: rest) :: splitNL [] R := by
    intro R
    rw [splitNL_append_no_nl _ hnl, splitNL_cons_nl]
    simp
  have hrunmid : ∀ (hs : List Host) (ls : List (List Char)),
      runLines hs ((c0 :: c1 :: rest) :: ls) = runLines hs ls := by
    intro hs ls
    simp only [runLines, hstep hs]
  rcases hA with hA | hA
  · subst hA
    rw [processOutput, processOutput, List.nil_append, List.nil_append]
    have hb : ((c0 :: c1 :: rest) ++ '\n' :: B) ++ [' ']
        = (c0 :: c1 :: rest) ++ '\n' :: (B ++ [' ']) := by simp
    rw [hb, hsplitmid, hrunmid]
  · rw [processOutput, processOutput]
    have hb : (A ++ (c0 :: c1 :: rest) ++ '\n' :: B) ++ [' ']
        = A ++ ((c0 :: c1 :: rest) ++ '\n' :: (B ++ [' '])) := by simp
    have hb2 : (A ++ B) ++ [' '] = A ++ (B ++ [' ']) := by simp
    rw [hb, hb2, splitNL_nlterm A hA, splitNL_nlterm A hA, hsplitmid,
      runLines_ignore_mid _ _ _ hstep]

/-- C7 witness: the unrecognized-prefix line `zq ` (prefix `z`, space in
position 2) is ignored in front of an empty remainder. -/
theorem wellformed_unknown_lines_ignored_witness :
    ((['z', 'q', ' '] : List Char) ≠ []) ∧
      processOutput 1 ([] ++ ('z' :: 'q' :: [' ']) ++ '\n' :: []) = processOutput 1 ([] ++ []) :=
  ⟨by decide,
    wellformed_unknown_lines_ignored 1 [] [] 'z' 'q' [' '] (Or.inl rfl)
      (by decide) (by decide) (by decide) (by decide) (by decide)⟩

/-- C6, counterexample: a `p` line for hop 0 is accepted even though no
`h` line for hop 0 ever appeared — `h 1` auto-extended the hop list with a
placeholder for hop 0, so the sample lands on the placeholder instead of
producing a malformed-output error. -/
theorem placeholder_hop_sample_accepted_cex :
    hopSummary (processOutput 1 (("h 1 10.0.0.1\np 0 100\n").data))
      = .ok [(none, [100]), (some (("10.0.0.1").data), [])] := by
  decide

/-- C6, amended: a `p` or `d` line is a malformed-output error exactly
when its hop index lies outside the hop list built so far (negative, or
at least the current hop count, i.e. beyond every index auto-extended by
an `h` line); indices below the count are accepted even without their own
`h` line.  Parsing never faults: every outcome is a hop list or
`malformed`. -/
theorem out_of_range_hop_reference_malformed
    (ls1 ls2 : List (List Char)) (hs : List Host) (c c1 : Char) (numf content : List Char)
    (hrun : runLines [] ls1 = .ok hs)
    (hc : c = 'p' ∨ c = 'd') (hnumf : ' ' ∉ numf)
    (hidx : parseByteNum numf < 0 ∨ hs.length ≤ (parseByteNum numf).toNat) :
    runLines [] (ls1 ++ (c :: c1 :: (numf ++ ' ' :: content)) :: ls2) = .malformed := by
  rw [runLines_append, hrun]
  simp only [runLines, stepLine_pd_invalid hs c c1 numf content hc hnumf hidx]

/-- C6 witness: with no hops declared, the line `p 0 ` references hop 0
out of range and the buffer is malformed. -/
theorem out_of_range_hop_reference_malformed_witness :
    (' ' ∉ (['0'] : List Char)) ∧
      runLines [] ([] ++ ('p' :: ' ' :: (['0'] ++ ' ' :: [])) :: []) = .malformed :=
  ⟨by decide,
    out_of_range_hop_reference_malformed [] [] [] 'p' ' ' ['0'] []
      (by decide) (Or.inl rfl) (by decide) (by decide)⟩

/-- C1: the route half of RouteState is never seeded — the only assignment
to `lastRoute` sits inside the `!= nil` branch, so from the initial state
the stored route stays absent after every processed trace, contrary to
the claim that it equals the newest route. -/
theorem route_state_never_seeded (l : List Outcome) (s : ExpState)
    (h : processCycle l initState = some s) : s.lastRoute = [] := by
  have aux : ∀ (l' : List Outcome) (s0 s1 : ExpState), s0.lastRoute = [] →
      processCycle l' s0 = some s1 → s1.lastRoute = [] := by
    intro l'
    induction l' with
    | nil =>
      intro s0 s1 h0 h1
      rw [processCycle] at h1
      cases h1
      exact h0
    | cons o rest ih =>
      intro s0 s1 h0 h1
      rw [processCycle] at h1
      cases hstep : stepOutcome s0 o with
      | none => rw [hstep] at h1; cases h1
      | some s2 =>
        rw [hstep] at h1
        exact ih s2 s1 (stepOutcome_lastRoute_nil o s0 s2 h0 hstep) h1
  exact aux l initState s rfl h

/-- C1 witness: after the first successful trace for alias `a`, the
destination is seeded but the stored route is still absent. -/
theorem route_state_never_seeded_witness :
    processCycle [Outcome.okF (feedback1 ['x'])] initState
        = some ⟨[(['a'], (ipHost 'x').ip)], [],
            [Event.sentE ['a'] ['t'] (ipHost 'x').hop (ipHost 'x').ip ((ipHost 'x').sent : ℚ),
             Event.receivedE ['a'] ['t'] (ipHost 'x').hop (ipHost 'x').ip ((ipHost 'x').received : ℚ),
             Event.droppedE ['a'] ['t'] (ipHost 'x').hop (ipHost 'x').ip ((ipHost 'x').dropped : ℚ),
             Event.lostE ['a'] ['t'] (ipHost 'x').hop (ipHost 'x').ip
               ((ipHost 'x').lostPercent * ((ipHost 'x').sent : ℚ)),
             Event.latencyE ['a'] ['t'] (ipHost 'x').hop (ipHost 'x').ip (ipHost 'x').mean]⟩ ∧
      (ExpState.mk [(['a'], (ipHost 'x').ip)] []
            [Event.sentE ['a'] ['t'] (ipHost 'x').hop (ipHost 'x').ip ((ipHost 'x').sent : ℚ),
             Event.receivedE ['a'] ['t'] (ipHost 'x').hop (ipHost 'x').ip ((ipHost 'x').received : ℚ),
             Event.droppedE ['a'] ['t'] (ipHost 'x').hop (ipHost 'x').ip ((ipHost 'x').dropped : ℚ),
             Event.lostE ['a'] ['t'] (ipHost 'x').hop (ipHost 'x').ip
               ((ipHost 'x').lostPercent * ((ipHost 'x').sent : ℚ)),
             Event.latencyE ['a'] ['t'] (ipHost 'x').hop (ipHost 'x').ip (ipHost 'x').mean]).lastRoute
        = [] :=
  ⟨rfl,
    route_state_never_seeded [Outcome.okF (feedback1 ['x'])]
      (ExpState.mk [(['a'], (ipHost 'x').ip)] []
            [Event.sentE ['a'] ['t'] (ipHost 'x').hop (ipHost 'x').ip ((ipHost 'x').sent : ℚ),
             Event.receivedE ['a'] ['t'] (ipHost 'x').hop (ipHost 'x').ip ((ipHost 'x').received : ℚ),
             Event.droppedE ['a'] ['t'] (ipHost 'x').hop (ipHost 'x').ip ((ipHost 'x').dropped : ℚ),
             Event.lostE ['a'] ['t'] (ipHost 'x').hop (ipHost 'x').ip
               ((ipHost 'x').lostPercent * ((ipHost 'x').sent : ℚ)),
             Event.latencyE ['a'] ['t'] (ipHost 'x').hop (ipHost 'x').ip (ipHost 'x').mean])
      rfl⟩

/-- C3: two successive successful traces for the same alias with routes
of different lengths (3 hops, then 5 hops) produce ZERO route-change
events — not the one event at divergence index 3 the claim describes —
because `lastRoute` is never seeded, so the comparison never runs. -/
theorem differing_length_routes_emit_nothing :
    (processCycle
        [Outcome.okF (feedback1 ['1', '2', '3']),
         Outcome.okF (feedback1 ['1', '2', '3', '4', '5'])] initState).map
        (fun s => ((s.events.filter Event.isRouteChange).length, s.lastRoute))
      = some (0, []) := by
  decide

/-- C4: for every hop with at least one received sample, the computed
standard deviation is the square root of the summed squared deviations
divided by the MEAN latency value (not by the sample count), exactly as
the source writes `math.Sqrt(sqrDiff / float64(host.Mean))`. -/
theorem standard_deviation_divides_by_mean (ps : Int) (h : Host)
    (hne : h.packetMicrosecs ≠ []) :
    standardDev (processHost ps h) = Real.sqrt ((specStdDevSq h.packetMicrosecs : ℚ) : ℝ) := by
  rw [standardDev, processHost_standardDevSq ps h hne]

/-- C4 witness: samples `[100, 150, 120]` (mean 370/3) give standard
deviation `sqrt(380/37)`. -/
theorem standard_deviation_divides_by_mean_witness :
    (([100, 150, 120] : List Int) ≠ []) ∧
      standardDev (processHost 3 { packetMicrosecs := [100, 150, 120] })
        = Real.sqrt ((specStdDevSq [100, 150, 120] : ℚ) : ℝ) :=
  ⟨by decide, standard_deviation_divides_by_mean 3 { packetMicrosecs := [100, 150, 120] } (by decide)⟩

/-- C10: the numeric-field parser does no digit validation — a `p` line
whose microseconds field is ANY newline-free byte sequence is accepted,
and the recorded latency sample is the fold `i = 10*i + (b - 48)` (in Go
64-bit `int` arithmetic) over those bytes, never a malformed-output
error. -/
theorem numeric_field_accepts_any_bytes (bs : List Char) (hbs : '\n' ∉ bs) :
    hopSummary (processOutput 1 ((("h 0 1.2.3.4\np 0 ").data) ++ bs ++ ['\n']))
      = .ok [(some (("1.2.3.4").data),
          [bs.foldl (fun i v => wrap64 (10 * i + ((v.toNat : Int) - 48))) 0])] := by
  have h0 : (("h 0 1.2.3.4\np 0 ").data) = (("h 0 1.2.3.4").data) ++ '\n' :: (("p 0 ").data) := by
    decide
  have hbuf : (((("h 0 1.2.3.4\np 0 ").data) ++ bs ++ ['\n']) ++ [' '])
      = (("h 0 1.2.3.4").data) ++ '\n' :: (((("p 0 ").data) ++ bs) ++ '\n' :: [' ']) := by
    rw [h0]; simp
  have hnl1 : '\n' ∉ (("h 0 1.2.3.4").data) := by decide
  have hnl2 : '\n' ∉ ((("p 0 ").data) ++ bs) := by
    intro hm
    rcases List.mem_append.mp hm with hm | hm
    · revert hm; decide
    · exact hbs hm
  rw [processOutput, hbuf, splitNL_append_no_nl _ hnl1, splitNL_cons_nl,
    splitNL_append_no_nl _ hnl2, splitNL_cons_nl]
  simp only [List.append_nil, List.reverse_reverse]
  have hline1 : stepLine [] (("h 0 1.2.3.4").data)
      = .ok [{ ip := some (("1.2.3.4").data), hop := 0 }] := by decide
  have hp0 : (("p 0 ").data) ++ bs = 'p' :: ' ' :: (['0'] ++ ' ' :: bs) := by
    have hchars : (("p 0 ").data) = 'p' :: ' ' :: '0' :: ' ' :: [] := by decide
    rw [hchars]; rfl
  have hline2 := stepLine_p_single ({ ip := some (("1.2.3.4").data), hop := 0 } : Host)
    ' ' ['0'] bs (by decide) (by decide)
  rw [show splitNL [] [' '] = [] from rfl]
  simp only [runLines, hline1, hp0, hline2]
  simp [hopSummary, processHost_ip, processHost_pm, parseByteNum]

/-- C10 witness: the non-digit field `:;` (bytes 58, 59) is accepted and
yields the sample `10*(58-48) + (59-48) = 111`. -/
theorem numeric_field_accepts_any_bytes_witness :
    ('\n' ∉ ((":;").data)) ∧
      hopSummary (processOutput 1 ((("h 0 1.2.3.4\np 0 ").data) ++ ((":;").data) ++ ['\n']))
        = .ok [(some (("1.2.3.4").data), [111])] :=
  ⟨by decide, (numeric_field_accepts_any_bytes ((":;").data) (by decide)).trans (by decide)⟩

/-- C8: a failed trace anywhere in a cycle contributes exactly one
failure-counter increment for its (alias, target): removing it leaves the
RouteState maps identical, every other emitted metric count identical,
and the rest of the cycle processed the same — and it delivers no trace
of its own. -/
theorem failed_trace_isolated (l1 l2 : List Outcome) (a t : Str) (st s : ExpState)
    (h : processCycle (l1 ++ Outcome.failF a t :: l2) st = some s) :
    ∃ s', processCycle (l1 ++ l2) st = some s' ∧
      s.lastDest = s'.lastDest ∧ s.lastRoute = s'.lastRoute ∧
      s.events.count (Event.failedE a t) = s'.events.count (Event.failedE a t) + 1 ∧
      ∀ e, e ≠ Event.failedE a t → s.events.count e = s'.events.count e := by
  rw [processCycle_append] at h
  cases h1 : processCycle l1 st with
  | none => rw [h1] at h; exact absurd h (by simp)
  | some s1 =>
    rw [h1] at h
    dsimp only at h
    rw [show processCycle (Outcome.failF a t :: l2) s1
        = processCycle l2 { s1 with events := s1.events ++ [Event.failedE a t] } from rfl] at h
    rw [processCycle_shift] at h
    dsimp only at h
    cases h2 : processCycle l2 ⟨s1.lastDest, s1.lastRoute, []⟩ with
    | none => rw [h2] at h; simp at h
    | some s2 =>
      rw [h2] at h
      simp only [Option.map_some'] at h
      have hs : s = ⟨s2.lastDest, s2.lastRoute, s1.events ++ [Event.failedE a t] ++ s2.events⟩ :=
        (Option.some.inj h).symm
      subst hs
      refine ⟨⟨s2.lastDest, s2.lastRoute, s1.events ++ s2.events⟩, ?_, rfl, rfl, ?_, ?_⟩
      · rw [processCycle_append, h1]
        dsimp only
        rw [processCycle_shift, h2]
        rfl
      · dsimp only
        simp [List.count_append, List.count_cons]
        omega
      · intro e he
        dsimp only
        simp only [List.count_append, List.count_cons]
        have hfe : (Event.failedE a t == e) = false := by
          simp only [beq_eq_false_iff_ne, ne_eq]
          exact fun hh => he hh.symm
        simp [hfe]

/-- C8 witness: a cycle consisting of one failed trace for alias `a`
leaves both maps empty and emits exactly the one failure increment. -/
theorem failed_trace_isolated_witness :
    ∃ s', processCycle ([] ++ []) initState = some s' ∧
      (ExpState.mk [] [] [Event.failedE ['a'] ['t']]).lastDest = s'.lastDest ∧
      (ExpState.mk [] [] [Event.failedE ['a'] ['t']]).lastRoute = s'.lastRoute ∧
      (ExpState.mk [] [] [Event.failedE ['a'] ['t']]).events.count (Event.failedE ['a'] ['t'])
        = s'.events.count (Event.failedE ['a'] ['t']) + 1 ∧
      ∀ e, e ≠ Event.failedE ['a'] ['t'] →
        (ExpState.mk [] [] [Event.failedE ['a'] ['t']]).events.count e = s'.events.count e :=
  failed_trace_isolated [] [] ['a'] ['t'] initState
    ⟨[], [], [Event.failedE ['a'] ['t']]⟩ (by decide)

end Mtr
